import Mathlib

/-!
Verification of the SRTPlay repository core (SRTPlay.py / SRTPlayMini.py).

Python strings are modelled as `List Char` (`PyStr`); Python `str.split()`,
`" ".join`, `str.replace`, `str.strip` and the two regular expressions used by
`clean_prompt` are translated to executable Lean functions over `PyStr`.
External effectful calls (the Gemini text/image backends) are modelled by
oracles: a function from the call's position in the trace to the observed
outcome (an exception or a returned payload).
-/

/-- Python strings, modelled as lists of characters. -/
abbrev PyStr := List Char

/-- Python whitespace test for a character (`str.isspace` on the characters
relevant to this program: space, tab, CR, LF). -/
def wsChar (c : Char) : Bool := c.isWhitespace

/-- Scanner for Python `str.split()`: `acc` holds the pending word reversed;
a whitespace character closes the pending word (if any), other characters
extend it. -/
def splitWsAux : PyStr → PyStr → List PyStr
  | [], acc => if acc.isEmpty then [] else [acc.reverse]
  | c :: cs, acc =>
    if wsChar c then
      if acc.isEmpty then splitWsAux cs [] else acc.reverse :: splitWsAux cs []
    else splitWsAux cs (c :: acc)

/-- Python `str.split()` (no separator): maximal runs of non-whitespace
characters, empty strings discarded. -/
def splitWs (l : PyStr) : List PyStr := splitWsAux l []

/-- Python `sep.join(ws)`. -/
def joinWith (sep : PyStr) : List PyStr → PyStr
  | [] => []
  | [w] => w
  | w :: ws => w ++ sep ++ joinWith sep ws

/-- Python `" ".join(ws)`, the join used by `agrupar_blocos`. -/
def joinWords (ws : List PyStr) : PyStr := joinWith [' '] ws

/-- Python `s.replace("\n", " ")` (single-character pattern and replacement,
hence a character map). -/
def replaceNl (s : PyStr) : PyStr := s.map (fun c => if c = '\n' then ' ' else c)

/-- `s.text.replace("\n"," ").split()` — the word list of one subtitle entry. -/
def palavras (s : PyStr) : List PyStr := splitWs (replaceNl s)

/-- A word as produced by `splitWs`: non-empty and whitespace-free. -/
def goodWord (w : PyStr) : Prop := w ≠ [] ∧ ∀ c ∈ w, wsChar c = false

/-- `pysrt.SubRipTime`: hours/minutes/seconds/milliseconds. -/
structure SubRipTime where
  hours : Nat
  minutes : Nat
  seconds : Nat
  milliseconds : Nat
deriving DecidableEq, Repr

/-- `pysrt` compares times through their millisecond ordinal. -/
def SubRipTime.ordinal (t : SubRipTime) : Nat :=
  ((t.hours * 60 + t.minutes) * 60 + t.seconds) * 1000 + t.milliseconds

/-- `pysrt.SubRipItem`: one subtitle entry.  The Python attribute `end` is a
Lean keyword and is rendered `end_`. -/
structure SubRipItem where
  start : SubRipTime
  end_ : SubRipTime
  text : PyStr
deriving DecidableEq, Repr

/-- One output block of `agrupar_blocos` (`{"start": ..., "end": ..., "text": ...}`). -/
structure Bloco where
  start : SubRipTime
  end_ : SubRipTime
  text : PyStr
deriving DecidableEq, Repr

/-- The `for s in subs:` loop body of `agrupar_blocos`, with the loop state
`(blocos, txt, start)` made explicit.  `start : Option SubRipTime` models the
Python variable that is `None` between blocks; `start.getD s.start` models
`start or s.start` (a `pysrt.SubRipTime` object is always truthy, so the `or`
only replaces `None`). -/
def agruparLoop (min_w max_w : Nat) :
    List SubRipItem → List PyStr → Option SubRipTime →
    List Bloco × List PyStr × Option SubRipTime
  | [], txt, start => ([], txt, start)
  | s :: rest, txt, start =>
    let words := palavras s.text
    if words.isEmpty then
      agruparLoop min_w max_w rest txt start
    else
      let start' := start.getD s.start
      let txt' := txt ++ words
      if min_w ≤ txt'.length then
        let r := agruparLoop min_w max_w rest [] none
        (⟨start', s.end_, joinWords (txt'.take max_w)⟩ :: r.1, r.2)
      else
        agruparLoop min_w max_w rest txt' start'

/-- `agrupar_blocos(subs, min_w, max_w)` from SRTPlay.py lines 39-60 (the
SRTPlayMini.py copy at lines 45-58 is character-for-character the same
algorithm).  The trailing block uses the pending `start` and `subs[-1].end`;
in Python both are guaranteed to exist when `txt` is non-empty, so the
`getD` defaults are never reached. -/
def agrupar_blocos (subs : List SubRipItem) (min_w : Nat := 20) (max_w : Nat := 30) :
    List Bloco :=
  let r := agruparLoop min_w max_w subs [] none
  if r.2.1.isEmpty then r.1
  else
    r.1 ++ [⟨(r.2.2).getD ⟨0, 0, 0, 0⟩,
            ((subs.getLast?).map SubRipItem.end_).getD ⟨0, 0, 0, 0⟩,
            joinWords r.2.1⟩]

/-- The words of one block's text, by Python `split()` semantics. -/
def wordsOf (b : Bloco) : List PyStr := splitWs b.text

/-- Word count of a block's text. -/
def wc (b : Bloco) : Nat := (wordsOf b).length

/-- Concatenation of the words of all blocks, in output order. -/
def blocksWords (bs : List Bloco) : List PyStr := (bs.map wordsOf).flatten

/-- Concatenation of the words of all subtitle entries, in input order. -/
def srtWords (subs : List SubRipItem) : List PyStr :=
  (subs.map (fun s => palavras s.text)).flatten

/-- Entries sorted by start time (input in chronological order). -/
def chronological (subs : List SubRipItem) : Prop :=
  List.Pairwise (fun a b => a.start.ordinal ≤ b.start.ordinal) subs

/-- Literal `Prompt` as a character list. -/
def promptLit : PyStr := ['P', 'r', 'o', 'm', 'p', 't']

/-- `\*{0,2}` followed by more pattern: with backtracking, a run of three or
more stars at the current position can never match, otherwise the whole run
is consumed. -/
def starBound (cs : PyStr) : Option PyStr :=
  if 3 ≤ (cs.takeWhile (fun c => c == '*')).length then none
  else some (cs.dropWhile (fun c => c == '*'))

/-- Literal `Prompt` in the pattern. -/
def expectPromptLit (cs : PyStr) : Option PyStr :=
  if promptLit.isPrefixOf cs then some (cs.drop 6) else none

/-- Literal `:` in the pattern. -/
def expectColon : PyStr → Option PyStr
  | c :: r => if c = ':' then some r else none
  | [] => none

/-- One match of `re` pattern `\*{0,2}Prompt\*{0,2}:\s*` anchored at the head
of `cs`; returns the remainder after the match (the trailing `\s*` is greedy
and final, so no backtracking into it is possible). -/
def matchLabel (cs : PyStr) : Option PyStr :=
  (starBound cs).bind fun r1 =>
  (expectPromptLit r1).bind fun r2 =>
  (starBound r2).bind fun r3 =>
  (expectColon r3).map fun r4 => r4.dropWhile wsChar

/-- Scan left to right for non-overlapping matches of the label pattern (the
search order of `re.split`); returns the text after the last match, or `none`
when the pattern does not occur.  The first argument is structural-recursion
fuel: every step either advances one character (no match at this position) or
jumps past a match, which consumes at least the seven characters `Prompt:`,
so a fuel equal to the scanned text's length is never exhausted. -/
def afterLastLabelAux : Nat → PyStr → Option PyStr
  | 0, _ => none
  | _ + 1, [] => none
  | fuel + 1, c :: rest =>
    match matchLabel (c :: rest) with
    | some r => some ((afterLastLabelAux fuel r).getD r)
    | none => afterLastLabelAux fuel rest

/-- The text after the last label match, or `none` when the pattern never
matches. -/
def afterLastLabel (cs : PyStr) : Option PyStr := afterLastLabelAux cs.length cs

/-- `parts = re.split(r"\*{0,2}Prompt\*{0,2}:\s*", raw); body = parts[-1] if
len(parts) > 1 else raw` — the text after the last label match, or `raw`
itself when the pattern never matches. -/
def splitLastLabel (raw : PyStr) : PyStr := (afterLastLabel raw).getD raw

/-- `re.sub(r"^Here(?:'|’)s a [^:]+:\s*", "", body)`: an anchored match of
`Here`, an apostrophe (ASCII `'` = `Char.ofNat 39`, or `’`), `s a `, at least
one non-colon character, a colon, then greedy whitespace; on a match the
matched prefix is removed, otherwise `body` is returned unchanged. -/
def stripPreamble (body : PyStr) : PyStr :=
  if ['H', 'e', 'r', 'e'].isPrefixOf body then
    match body.drop 4 with
    | a :: r2 =>
      if a = Char.ofNat 39 ∨ a = '’' then
        if ['s', ' ', 'a', ' '].isPrefixOf r2 then
          let r3 := r2.drop 4
          let nc := r3.takeWhile (fun c => c ≠ ':')
          if 1 ≤ nc.length ∧ nc.length < r3.length then
            (r3.drop (nc.length + 1)).dropWhile wsChar
          else body
        else body
      else body
    | [] => body
  else body

/-- `body.replace("*", "")`. -/
def removeStars (body : PyStr) : PyStr := body.filter (fun c => c ≠ '*')

/-- Python `str.strip()`: whitespace removed from both ends. -/
def pyStrip (l : PyStr) : PyStr :=
  ((l.dropWhile wsChar).reverse.dropWhile wsChar).reverse

/-- Scanner for `re.sub(r"\s+", " ", body)`: the flag records whether the
previous character was part of a whitespace run; each maximal whitespace run
emits one space at its first character. -/
def collapseWsAux : PyStr → Bool → PyStr
  | [], _ => []
  | c :: cs, inRun =>
    if wsChar c then
      if inRun then collapseWsAux cs true else ' ' :: collapseWsAux cs true
    else c :: collapseWsAux cs false

/-- `re.sub(r"\s+", " ", body)`: every maximal whitespace run becomes one
space. -/
def collapseWs (l : PyStr) : PyStr := collapseWsAux l false

/-- `clean_prompt` from SRTPlay.py lines 63-68 (identical in SRTPlayMini.py
lines 60-65). -/
def clean_prompt (raw : PyStr) : PyStr :=
  collapseWs (pyStrip (removeStars (stripPreamble (splitLastLabel raw))))

/-- No two consecutive whitespace characters. -/
def noDoubleWs : PyStr → Bool
  | a :: b :: t => (!(wsChar a && wsChar b)) && noDoubleWs (b :: t)
  | _ => true

/-- The first character, if any, is not whitespace. -/
def headWsFree : PyStr → Bool
  | [] => true
  | c :: _ => !wsChar c

/-- The last character, if any, is not whitespace. -/
def lastWsFree (l : PyStr) : Bool := headWsFree l.reverse

/-- `STYLE_SUFFIX` of SRTPlay.py (the uncommented literals, concatenated). -/
def STYLE_SUFFIX : PyStr :=
  ("abstract design, black background, aspect_ratio=16:9, size=1024x574.").toList

/-- `STYLE_SUFFIX` of SRTPlayMini.py (the uncommented literal). -/
def STYLE_SUFFIX_MINI : PyStr :=
  ("Cinematic and Photorealistic, Photography high detailed, 4k, Chiaroscuro, no text overlay.").toList

/-- Observed outcome of one `client_txt.models.generate_content` call in
`gerar_prompt`: either some exception was raised anywhere inside the `try`
block (network error, missing candidate/part, `client_txt` is `None`), or the
call returned and `resp.candidates[0].content.parts[0].text or ""` evaluated
to `raw`. -/
inductive RewriteResult where
  | raised : RewriteResult
  | ok : PyStr → RewriteResult
deriving DecidableEq

/-- The deterministic fallback `f"{texto}, {STYLE_SUFFIX}"`. -/
def fallbackPrompt (style_suffix texto : PyStr) : PyStr :=
  texto ++ (", ").toList ++ style_suffix

/-- Common body of `gerar_prompt` in both files (they differ only in the
request wording and the `STYLE_SUFFIX` constant): clean the rewritten text,
return it if it is non-empty and does not start with the first ten characters
of the input, otherwise (or on any exception) return the fallback. -/
def gerar_prompt_core (style_suffix : PyStr) (rewrite : RewriteResult) (texto : PyStr) : PyStr :=
  match rewrite with
  | .raised => fallbackPrompt style_suffix texto
  | .ok raw =>
    let prompt := clean_prompt raw
    if prompt.isEmpty = false ∧ (texto.take 10).isPrefixOf prompt = false then prompt
    else fallbackPrompt style_suffix texto

/-- `gerar_prompt` from SRTPlay.py lines 71-94. -/
def gerar_prompt (rewrite : RewriteResult) (texto : PyStr) : PyStr :=
  gerar_prompt_core STYLE_SUFFIX rewrite texto

/-- `gerar_prompt` from SRTPlayMini.py lines 67-88. -/
def gerar_prompt_mini (rewrite : RewriteResult) (texto : PyStr) : PyStr :=
  gerar_prompt_core STYLE_SUFFIX_MINI rewrite texto

/-- `gerar_prompt(client_txt, blk["text"]) if client_txt else blk["text"]` —
the per-block prompt choice of SRTPlayMini.py lines 142 and 163. -/
def prompt_para_bloco (client_txt : Bool) (rewrite : RewriteResult) (texto : PyStr) : PyStr :=
  if client_txt then gerar_prompt_mini rewrite texto else texto

/-- `part.inline_data` when present: an object carrying `data` bytes. -/
structure InlineData where
  data : List Nat
deriving DecidableEq

/-- One element of `cand0.content.parts`. -/
structure GenPart where
  inline_data : Option InlineData
deriving DecidableEq

/-- `candidate.content`; `parts` is `None` or a list
(`getattr(cand0.content, "parts", None)` is falsy for `None` and `[]`). -/
structure GenContent where
  parts : Option (List GenPart)
deriving DecidableEq

/-- One element of `resp.candidates`. -/
structure GenCandidate where
  content : Option GenContent
deriving DecidableEq

/-- A returned response object (always truthy as a Python object). -/
structure GenResponse where
  candidates : List GenCandidate
deriving DecidableEq

/-- Observed outcome of one `client_img.models.generate_content` call:
an exception, or a response object. -/
inductive CallResult where
  | raised : CallResult
  | ok : GenResponse → CallResult
deriving DecidableEq

/-- `for part in cand0.content.parts: if part.inline_data: return ...` —
the first part carrying inline data, if any. -/
def firstImage : List GenPart → Option (List Nat)
  | [] => none
  | p :: ps =>
    match p.inline_data with
    | some d => some d.data
    | none => firstImage ps

/-- The image bytes one loop iteration of `gerar_imagem` extracts from a
returned response: `resp` truthy and `resp.candidates` non-empty, then
`cand0.content` present and `getattr(cand0.content, "parts", None)` truthy
(a non-`None`, non-empty list), then the first part with `inline_data`. -/
def attemptImage (resp : GenResponse) : Option (List Nat) :=
  match resp.candidates with
  | [] => none
  | cand0 :: _ =>
    match cand0.content with
    | none => none
    | some ct =>
      match ct.parts with
      | none => none
      | some ps => if ps.isEmpty then none else firstImage ps

/-- Image bytes extracted from one attempt's outcome (an exception yields
nothing). -/
def attemptBytes : CallResult → Option (List Nat)
  | .raised => none
  | .ok resp => attemptImage resp

/-- The `for _ in range(tries)` loop of `gerar_imagem`, with `k` the index of
the next attempt in the oracle trace and the second argument the remaining
iterations.  A raised attempt sleeps and continues; a returned response either
yields bytes (early return) or sleeps and continues. -/
def gerar_imagem_go (oracle : Nat → CallResult) : Nat → Nat → Option (List Nat)
  | _, 0 => none
  | k, n + 1 =>
    match oracle k with
    | .raised => gerar_imagem_go oracle (k + 1) n
    | .ok resp =>
      match attemptImage resp with
      | some b => some b
      | none => gerar_imagem_go oracle (k + 1) n

/-- `gerar_imagem` from SRTPlay.py lines 97-115, with the backend modelled by
an oracle giving the outcome of each successive call. -/
def gerar_imagem (oracle : Nat → CallResult) (tries : Nat := 50) : Option (List Nat) :=
  gerar_imagem_go oracle 0 tries

/-- Zero-padded decimal rendering, Python format spec `0{w}d` for `n ≥ 0`. -/
def padNum (w n : Nat) : PyStr :=
  let ds := Nat.toDigits 10 n
  List.replicate (w - ds.length) '0' ++ ds

/-- `tag(t)` from SRTPlay.py line 36: `f"{h:02d}_{m:02d}_{s:02d}_{ms:03d}"`. -/
def tag (t : SubRipTime) : PyStr :=
  padNum 2 t.hours ++ ['_'] ++ padNum 2 t.minutes ++ ['_'] ++
  padNum 2 t.seconds ++ ['_'] ++ padNum 3 t.milliseconds

/-- `key = f"{tag(blk['start'])}-{tag(blk['end'])}"`. -/
def keyOf (b : Bloco) : PyStr := tag b.start ++ ['-'] ++ tag b.end_

/-- Plain decimal rendering of a block index, Python `f"{i}"`. -/
def natStr (n : Nat) : PyStr := Nat.toDigits 10 n

/-- `fname = f"{key}_B{i}.png"`. -/
def nameOf (b : Bloco) (i : Nat) : PyStr :=
  keyOf b ++ ("_B").toList ++ natStr i ++ (".png").toList

/-- The two selector filters: skip when `selected_idxs` is non-empty and `i`
is not in it, or `selected_ts` is non-empty and `key` is not in it. -/
def passes (selected_idxs : List Nat) (selected_ts : List PyStr) (i : Nat) (key : PyStr) :
    Bool :=
  (selected_idxs.isEmpty || selected_idxs.contains i) &&
  (selected_ts.isEmpty || selected_ts.contains key)

/-- One element of `st.session_state["imgs"]`:
`{"name": fname, "bytes": img_bytes, "prompt": prompt}`. -/
structure ImgItem where
  name : PyStr
  bytes : List Nat
  prompt : PyStr
deriving DecidableEq

/-- The item appended for block number `i` (1-based) with image bytes `b`. -/
def mkItem (rw : Nat → RewriteResult) (i : Nat) (blk : Bloco) (b : List Nat) : ImgItem :=
  ⟨nameOf blk i, b, gerar_prompt (rw i) blk.text⟩

/-- The `for i, blk in enumerate(blocos, 1)` loop of the *Gerar Imagens*
button (SRTPlay.py lines 163-181), producing the accumulated
`st.session_state["imgs"]` and the list of per-block warnings `(i, key)`
emitted for blocks whose generation returned no image.  `rw i` is the
outcome of the `gerar_prompt` backend call for block `i`, and `imgOracle i`
is the trace of `gerar_imagem` backend calls for block `i` (the code calls
`gerar_imagem` with the default `tries = 50`). -/
def runAllLoop (rw : Nat → RewriteResult) (imgOracle : Nat → Nat → CallResult)
    (si : List Nat) (ts : List PyStr) :
    List Bloco → Nat → List ImgItem × List (Nat × PyStr)
  | [], _ => ([], [])
  | blk :: rest, i =>
    let key := keyOf blk
    if passes si ts i key then
      match gerar_imagem (imgOracle i) 50 with
      | none =>
        let r := runAllLoop rw imgOracle si ts rest (i + 1)
        (r.1, (i, key) :: r.2)
      | some b =>
        let r := runAllLoop rw imgOracle si ts rest (i + 1)
        (mkItem rw i blk b :: r.1, r.2)
    else runAllLoop rw imgOracle si ts rest (i + 1)

/-- The *Gerar Imagens* run over all blocks, starting from the empty result
list (`st.session_state["imgs"] = []` at the top of the handler). -/
def runAll (blocos : List Bloco) (rw : Nat → RewriteResult)
    (imgOracle : Nat → Nat → CallResult) (si : List Nat) (ts : List PyStr) :
    List ImgItem × List (Nat × PyStr) :=
  runAllLoop rw imgOracle si ts blocos 1

/-- The items the run is expected to hold: one per filtered block whose
generation produced bytes, in block order. -/
def specImgs (blocos : List Bloco) (rw : Nat → RewriteResult)
    (imgOracle : Nat → Nat → CallResult) (si : List Nat) (ts : List PyStr) :
    List ImgItem :=
  (blocos.enumFrom 1).filterMap fun p =>
    if passes si ts p.1 (keyOf p.2) then
      match gerar_imagem (imgOracle p.1) 50 with
      | some b => some (mkItem rw p.1 p.2 b)
      | none => none
    else none

/-- The warnings the run is expected to emit: one per filtered block whose
generation produced no image, in block order. -/
def specWarns (blocos : List Bloco) (imgOracle : Nat → Nat → CallResult)
    (si : List Nat) (ts : List PyStr) : List (Nat × PyStr) :=
  (blocos.enumFrom 1).filterMap fun p =>
    if passes si ts p.1 (keyOf p.2) then
      match gerar_imagem (imgOracle p.1) 50 with
      | some _ => none
      | none => some (p.1, keyOf p.2)
    else none

/-- The `for i, blk in enumerate(st.session_state["blocos"], 1)` loop of the
*Reprocessar falhas* button (SRTPlay.py lines 186-205): a block whose name
`f"{key}_B{i}.png"` is already present in the current result list is skipped
(the membership test runs against the list as it grows); otherwise the
filters apply and a successful generation appends to the result list. -/
def reprocessLoop (rw : Nat → RewriteResult) (imgOracle : Nat → Nat → CallResult)
    (si : List Nat) (ts : List PyStr) :
    List Bloco → Nat → List ImgItem → List ImgItem
  | [], _, imgs => imgs
  | blk :: rest, i, imgs =>
    let key := keyOf blk
    if imgs.any (fun item => item.name = nameOf blk i) then
      reprocessLoop rw imgOracle si ts rest (i + 1) imgs
    else if passes si ts i key then
      match gerar_imagem (imgOracle i) 50 with
      | some b => reprocessLoop rw imgOracle si ts rest (i + 1) (imgs ++ [mkItem rw i blk b])
      | none => reprocessLoop rw imgOracle si ts rest (i + 1) imgs
    else reprocessLoop rw imgOracle si ts rest (i + 1) imgs

/-- The *Reprocessar falhas* run, starting from the session's current result
list `imgs0`. -/
def reprocess (blocos : List Bloco) (rw : Nat → RewriteResult)
    (imgOracle : Nat → Nat → CallResult) (si : List Nat) (ts : List PyStr)
    (imgs0 : List ImgItem) : List ImgItem :=
  reprocessLoop rw imgOracle si ts blocos 1 imgs0

/-! Concrete data used by witnesses and counterexamples. -/

/-- A time at `s` seconds. -/
def tSec (s : Nat) : SubRipTime := ⟨0, 0, s, 0⟩

/-- Entry with 11 words (for the coverage witness). -/
def entA : SubRipItem := ⟨tSec 0, tSec 2, ("w1 w2 w3 w4 w5 w6 w7 w8 w9 w10 w11").toList⟩

/-- Entry with 10 words. -/
def entB : SubRipItem := ⟨tSec 3, tSec 5, ("x1 x2 x3 x4 x5 x6 x7 x8 x9 x10").toList⟩

/-- Entry with 5 words. -/
def entC : SubRipItem := ⟨tSec 6, tSec 8, ("y1 y2 y3 y4 y5").toList⟩

/-- Entry with 31 words: with `min_words = 20, max_words = 30` the single
closing block keeps only the first 30 words and the 31st is dropped. -/
def ent31 : SubRipItem :=
  ⟨tSec 0, tSec 1,
   ("a b c d e f g h i j k l m n o p q r s t u v w x y z A B C D E").toList⟩

/-- Entry with 12 words (scenario of C8). -/
def ent12 : SubRipItem :=
  ⟨tSec 0, tSec 3, ("one two three four five six seven eight nine ten eleven twelve").toList⟩

/-- Entry with 9 words (scenario of C8). -/
def ent9 : SubRipItem := ⟨tSec 4, tSec 6, ("a b c d e f g h i").toList⟩

/-- Entry with 15 words (scenario of C8). -/
def ent15 : SubRipItem :=
  ⟨tSec 7, tSec 9, ("p q r s t u v w x y z pp qq rr ss").toList⟩

/-- A one-word entry: with `max_words = 0` its block text is empty. -/
def entHello : SubRipItem := ⟨tSec 0, tSec 1, ("hello").toList⟩

/-- A response whose first candidate carries inline image bytes in its second
part. -/
def respImg : GenResponse := ⟨[⟨some ⟨some [⟨none⟩, ⟨some ⟨[1, 2, 3]⟩⟩]⟩⟩]⟩

/-- An attempt trace: the first call raises, the second returns an image. -/
def orcW : Nat → CallResult := fun k => if k = 1 then .ok respImg else .raised

/-- A per-block image-call trace where every call immediately returns an
image. -/
def orcAll : Nat → Nat → CallResult := fun _ _ => .ok respImg

/-- A rewrite trace where every text call raises (deterministic fallback). -/
def rwAll : Nat → RewriteResult := fun _ => .raised

/-- Four blocks with distinctive texts (context counterexample, C7). -/
def blkW (i : Nat) (txt : String) : Bloco := ⟨tSec i, tSec (i + 1), txt.toList⟩

/-- Block list for the context counterexample. -/
def blocosCtx : List Bloco :=
  [blkW 0 "opening scene", blkW 2 "zebra river", blkW 4 "golden gate", blkW 6 "final scene"]

/-- Two-block list for the reprocessing witness. -/
def blocosRe : List Bloco := [blkW 0 "first block", blkW 2 "second block"]

/-- A result list already holding artifacts named for both blocks of
`blocosRe`. -/
def imgsRe : List ImgItem :=
  [⟨nameOf (blkW 0 "first block") 1, [9], ("p1").toList⟩,
   ⟨nameOf (blkW 2 "second block") 2, [8], ("p2").toList⟩]

/-- Echo response for the C6 witness: the cleaned rewrite starts with the
first ten characters of the input text. -/
def rawEcho : PyStr := ("hello world scene with extras").toList

/-- Input text for the C6 witness. -/
def textoW : PyStr := ("hello world scene").toList

/-! Lemmas about the word model. -/

/-- Every word produced by the split scanner is non-empty and
whitespace-free. -/
theorem splitWsAux_good :
    ∀ (l acc : PyStr), (∀ c ∈ acc, wsChar c = false) →
      ∀ w ∈ splitWsAux l acc, goodWord w := by
  intro l
  induction l with
  | nil =>
    intro acc hacc w hw
    simp only [splitWsAux] at hw
    split at hw
    · simp at hw
    · rename_i hne
      simp only [List.mem_singleton] at hw
      subst hw
      constructor
      · simpa using fun h => hne (by simp [h, List.isEmpty_iff])
      · intro c hc
        exact hacc c (by simpa using hc)
  | cons c cs ih =>
    intro acc hacc w hw
    simp only [splitWsAux] at hw
    by_cases hws : wsChar c
    · rw [if_pos hws] at hw
      split at hw
      · exact ih [] (by simp) w hw
      · rename_i hne
        rcases List.mem_cons.mp hw with h | h
        · subst h
          constructor
          · simpa using fun h => hne (by simp [h, List.isEmpty_iff])
          · intro d hd
            exact hacc d (by simpa using hd)
        · exact ih [] (by simp) w h
    · rw [if_neg hws] at hw
      refine ih (c :: acc) ?_ w hw
      intro d hd
      rcases List.mem_cons.mp hd with h | h
      · subst h; simpa using hws
      · exact hacc d h

/-- Every word of `splitWs` is good. -/
theorem goodWord_splitWs (l : PyStr) : ∀ w ∈ splitWs l, goodWord w :=
  splitWsAux_good l [] (by simp)

/-- Every word of `palavras` is good. -/
theorem palavras_good (s : PyStr) : ∀ w ∈ palavras s, goodWord w :=
  goodWord_splitWs _

/-- Scanning a whitespace-free chunk just moves it into the accumulator. -/
theorem splitWsAux_chunk :
    ∀ (w : PyStr), (∀ c ∈ w, wsChar c = false) →
      ∀ (rest acc : PyStr), splitWsAux (w ++ rest) acc = splitWsAux rest (w.reverse ++ acc) := by
  intro w
  induction w with
  | nil => intro _ rest acc; simp
  | cons c cs ih =>
    intro hw rest acc
    have hc : wsChar c = false := hw c (by simp)
    simp only [List.cons_append, splitWsAux, hc, List.append_eq]
    rw [if_neg (by simp [hc])]
    rw [ih (fun d hd => hw d (by simp [hd])) rest (c :: acc)]
    simp

/-- Splitting the space-join of good words recovers the words. -/
theorem splitWs_joinWords :
    ∀ (ws : List PyStr), (∀ w ∈ ws, goodWord w) → splitWs (joinWords ws) = ws := by
  intro ws
  induction ws with
  | nil => intro _; rfl
  | cons w ws ih =>
    intro h
    have hw : goodWord w := h w (by simp)
    cases ws with
    | nil =>
      show splitWs w = [w]
      have := splitWsAux_chunk w hw.2 [] []
      rw [List.append_nil] at this
      unfold splitWs
      rw [this]
      simp only [splitWsAux, List.append_nil]
      rw [if_neg (by simpa [List.isEmpty_iff] using hw.1)]
      simp
    | cons v vs =>
      have hj : joinWords (w :: v :: vs) = w ++ (' ' :: joinWords (v :: vs)) := by
        show joinWith [' '] (w :: v :: vs) = _
        simp [joinWith, joinWords]
      rw [hj]
      unfold splitWs
      rw [splitWsAux_chunk w hw.2 _ []]
      simp only [splitWsAux, List.append_nil]
      rw [if_pos (by simp [wsChar])]
      rw [if_neg (by simpa [List.isEmpty_iff] using hw.1)]
      simp only [List.reverse_reverse]
      rw [show splitWsAux (joinWords (v :: vs)) [] = splitWs (joinWords (v :: vs)) from rfl]
      rw [ih (fun u hu => h u (by simp [hu]))]

/-- The space-join of a non-empty list of good words is non-empty. -/
theorem joinWords_ne_nil :
    ∀ (ws : List PyStr), ws ≠ [] → (∀ w ∈ ws, goodWord w) → joinWords ws ≠ [] := by
  intro ws hne h
  cases ws with
  | nil => exact absurd rfl hne
  | cons w vs =>
    cases vs with
    | nil =>
      show w ≠ []
      exact (h w (by simp)).1
    | cons v vs' =>
      show w ++ [' '] ++ joinWith [' '] (v :: vs') ≠ []
      simp

/-! Lemmas about the segmentation loop. -/

/-- `srtWords` distributes over cons. -/
theorem srtWords_cons (s : SubRipItem) (rest : List SubRipItem) :
    srtWords (s :: rest) = palavras s.text ++ srtWords rest := by
  simp [srtWords]

/-- `blocksWords` distributes over cons. -/
theorem blocksWords_cons (b : Bloco) (bs : List Bloco) :
    blocksWords (b :: bs) = wordsOf b ++ blocksWords bs := by
  simp [blocksWords]

/-- The pending word accumulator of the loop contains only good words. -/
theorem agruparLoop_good (min_w max_w : Nat) :
    ∀ (subs : List SubRipItem) (txt : List PyStr) (start : Option SubRipTime),
      (∀ w ∈ txt, goodWord w) →
      ∀ w ∈ (agruparLoop min_w max_w subs txt start).2.1, goodWord w := by
  intro subs
  induction subs with
  | nil =>
    intro txt start h
    simpa [agruparLoop] using h
  | cons s rest ih =>
    intro txt start h
    simp only [agruparLoop]
    by_cases he : (palavras s.text).isEmpty
    · rw [if_pos he]
      exact ih txt start h
    · rw [if_neg he]
      by_cases hc : min_w ≤ (txt ++ palavras s.text).length
      · rw [if_pos hc]
        exact ih [] none (by simp)
      · rw [if_neg hc]
        refine ih _ _ ?_
        intro u hu
        rcases List.mem_append.mp hu with h1 | h2
        · exact h u h1
        · exact palavras_good _ u h2

/-- Every block emitted by the loop has its word count in
`[min_w, max_w]` (given `min_w ≤ max_w`). -/
theorem agruparLoop_wc (min_w max_w : Nat) (hmm : min_w ≤ max_w) :
    ∀ (subs : List SubRipItem) (txt : List PyStr) (start : Option SubRipTime),
      (∀ w ∈ txt, goodWord w) →
      ∀ b ∈ (agruparLoop min_w max_w subs txt start).1,
        min_w ≤ wc b ∧ wc b ≤ max_w := by
  intro subs
  induction subs with
  | nil =>
    intro txt start _ b hb
    simp [agruparLoop] at hb
  | cons s rest ih =>
    intro txt start h b hb
    simp only [agruparLoop] at hb
    by_cases he : (palavras s.text).isEmpty
    · rw [if_pos he] at hb
      exact ih txt start h b hb
    · rw [if_neg he] at hb
      by_cases hc : min_w ≤ (txt ++ palavras s.text).length
      · rw [if_pos hc] at hb
        have hgood : ∀ w ∈ (txt ++ palavras s.text).take max_w, goodWord w := by
          intro u hu
          have := List.take_subset max_w _ hu
          rcases List.mem_append.mp this with h1 | h2
          · exact h u h1
          · exact palavras_good _ u h2
        rcases List.mem_cons.mp hb with h1 | h2
        · subst h1
          have hwc : wc ⟨start.getD s.start, s.end_,
              joinWords ((txt ++ palavras s.text).take max_w)⟩
              = ((txt ++ palavras s.text).take max_w).length := by
            simp only [wc, wordsOf]
            rw [splitWs_joinWords _ hgood]
          rw [hwc, List.length_take]
          omega
        · exact ih [] none (by simp) b h2
      · rw [if_neg hc] at hb
        refine ih _ _ ?_ b hb
        intro u hu
        rcases List.mem_append.mp hu with h1 | h2
        · exact h u h1
        · exact palavras_good _ u h2

/-- Exact coverage invariant of the loop: when no close ever exceeds
`max_w` accumulated words, the emitted blocks' words followed by the pending
accumulator are exactly the pending accumulator followed by the remaining
entries' words. -/
theorem agruparLoop_cover (min_w max_w : Nat) (h1 : 1 ≤ min_w) (h2 : min_w ≤ max_w) :
    ∀ (subs : List SubRipItem) (txt : List PyStr) (start : Option SubRipTime),
      (∀ w ∈ txt, goodWord w) → txt.length < min_w →
      (∀ s ∈ subs, (palavras s.text).length ≤ max_w - min_w + 1) →
      blocksWords (agruparLoop min_w max_w subs txt start).1
          ++ (agruparLoop min_w max_w subs txt start).2.1
        = txt ++ srtWords subs := by
  intro subs
  induction subs with
  | nil =>
    intro txt start _ _ _
    simp [agruparLoop, blocksWords, srtWords]
  | cons s rest ih =>
    intro txt start hg hlen hb
    simp only [agruparLoop]
    by_cases he : (palavras s.text).isEmpty
    · rw [if_pos he]
      rw [srtWords_cons, List.isEmpty_iff.mp he]
      simpa using ih txt start hg hlen (fun u hu => hb u (by simp [hu]))
    · rw [if_neg he]
      by_cases hc : min_w ≤ (txt ++ palavras s.text).length
      · rw [if_pos hc]
        have hgood : ∀ w ∈ txt ++ palavras s.text, goodWord w := by
          intro u hu
          rcases List.mem_append.mp hu with hx | hx
          · exact hg u hx
          · exact palavras_good _ u hx
        have hle : (txt ++ palavras s.text).length ≤ max_w := by
          have := hb s (by simp)
          rw [List.length_append]
          omega
        have htake : (txt ++ palavras s.text).take max_w = txt ++ palavras s.text :=
          List.take_of_length_le hle
        have hwords : wordsOf ⟨start.getD s.start, s.end_,
            joinWords ((txt ++ palavras s.text).take max_w)⟩
            = txt ++ palavras s.text := by
          simp only [wordsOf]
          rw [htake, splitWs_joinWords _ hgood]
        rw [blocksWords_cons, hwords, srtWords_cons]
        have := ih [] none (by simp) (by simpa using h1) (fun u hu => hb u (by simp [hu]))
        simp only [List.nil_append] at this
        rw [List.append_assoc, this, List.append_assoc]
      · rw [if_neg hc]
        rw [srtWords_cons, ← List.append_assoc]
        refine ih _ _ ?_ (by omega) (fun u hu => hb u (by simp [hu]))
        intro u hu
        rcases List.mem_append.mp hu with hx | hx
        · exact hg u hx
        · exact palavras_good _ u hx

/-- Order-preserving non-duplication invariant of the loop: the emitted
blocks' words followed by the pending accumulator always form a sublist of
the pending accumulator followed by the remaining entries' words. -/
theorem agruparLoop_sub (min_w max_w : Nat) :
    ∀ (subs : List SubRipItem) (txt : List PyStr) (start : Option SubRipTime),
      (∀ w ∈ txt, goodWord w) →
      List.Sublist
        (blocksWords (agruparLoop min_w max_w subs txt start).1
          ++ (agruparLoop min_w max_w subs txt start).2.1)
        (txt ++ srtWords subs) := by
  intro subs
  induction subs with
  | nil =>
    intro txt start _
    simp [agruparLoop, blocksWords, srtWords]
  | cons s rest ih =>
    intro txt start hg
    simp only [agruparLoop]
    by_cases he : (palavras s.text).isEmpty
    · rw [if_pos he]
      rw [srtWords_cons, List.isEmpty_iff.mp he]
      simpa using ih txt start hg
    · rw [if_neg he]
      by_cases hc : min_w ≤ (txt ++ palavras s.text).length
      · rw [if_pos hc]
        have hgood : ∀ w ∈ (txt ++ palavras s.text).take max_w, goodWord w := by
          intro u hu
          rcases List.mem_append.mp (List.take_subset max_w _ hu) with hx | hx
          · exact hg u hx
          · exact palavras_good _ u hx
        have hwords : wordsOf ⟨start.getD s.start, s.end_,
            joinWords ((txt ++ palavras s.text).take max_w)⟩
            = (txt ++ palavras s.text).take max_w := by
          simp only [wordsOf]
          rw [splitWs_joinWords _ hgood]
        rw [blocksWords_cons, hwords, srtWords_cons, List.append_assoc]
        rw [show txt ++ (palavras s.text ++ srtWords rest)
              = (txt ++ palavras s.text) ++ srtWords rest by rw [List.append_assoc]]
        refine List.Sublist.append (List.take_sublist _ _) ?_
        simpa using ih [] none (by simp)
      · rw [if_neg hc]
        rw [srtWords_cons, ← List.append_assoc]
        refine ih _ _ ?_
        intro u hu
        rcases List.mem_append.mp hu with hx | hx
        · exact hg u hx
        · exact palavras_good _ u hx

/-- In a chronologically sorted list, every member starts no later than the
last element. -/
theorem mem_start_le_getLast :
    ∀ (l : List SubRipItem), chronological l → ∀ s0 ∈ l, ∀ (h : l ≠ []),
      s0.start.ordinal ≤ (l.getLast h).start.ordinal := by
  intro l
  induction l with
  | nil => intro _ s0 h0; simp at h0
  | cons a t ih =>
    intro hp s0 h0 h
    cases t with
    | nil =>
      simp only [List.mem_singleton] at h0
      subst h0
      simp [List.getLast]
    | cons b t' =>
      rw [List.getLast_cons (by simp)]
      rcases List.mem_cons.mp h0 with h1 | h1
      · subst h1
        have hmem : (b :: t').getLast (by simp) ∈ b :: t' := List.getLast_mem _
        exact (List.pairwise_cons.mp hp).1 _ hmem
      · exact ih (List.pairwise_cons.mp hp).2 s0 h1 (by simp)

/-- Structural invariants of the segmentation loop (for C9): emitted blocks
have `start ≤ end` and non-empty text; the final pending start is the start
of some input entry (or the initial pending start); accumulator and pending
start are empty/`none` together. -/
theorem agruparLoop_ok (min_w max_w : Nat) (hM : 1 ≤ max_w) :
    ∀ (subs : List SubRipItem) (txt : List PyStr) (start : Option SubRipTime),
      (∀ w ∈ txt, goodWord w) →
      (txt = [] ↔ start = none) →
      (∀ t, start = some t → ∀ s ∈ subs, t.ordinal ≤ s.start.ordinal) →
      chronological subs →
      (∀ s ∈ subs, s.start.ordinal ≤ s.end_.ordinal) →
      (∀ b ∈ (agruparLoop min_w max_w subs txt start).1,
          b.start.ordinal ≤ b.end_.ordinal ∧ b.text ≠ [])
      ∧ (∀ t, (agruparLoop min_w max_w subs txt start).2.2 = some t →
          start = some t ∨ ∃ s ∈ subs, t = s.start)
      ∧ ((agruparLoop min_w max_w subs txt start).2.1 = []
          ↔ (agruparLoop min_w max_w subs txt start).2.2 = none) := by
  intro subs
  induction subs with
  | nil =>
    intro txt start _ hsync _ _ _
    refine ⟨by simp [agruparLoop], ?_, by simpa [agruparLoop] using hsync⟩
    intro t ht
    simp only [agruparLoop] at ht
    exact Or.inl ht
  | cons s rest ih =>
    intro txt start hg hsync hstart hch hv
    have hch' : chronological rest := (List.pairwise_cons.mp hch).2
    have hv' : ∀ u ∈ rest, u.start.ordinal ≤ u.end_.ordinal :=
      fun u hu => hv u (by simp [hu])
    simp only [agruparLoop]
    by_cases he : (palavras s.text).isEmpty
    · rw [if_pos he]
      obtain ⟨ihA, ihB, ihC⟩ := ih txt start hg hsync
        (fun t ht u hu => hstart t ht u (by simp [hu])) hch' hv'
      refine ⟨ihA, ?_, ihC⟩
      intro t ht
      rcases ihB t ht with h' | ⟨u, hu, h'⟩
      · exact Or.inl h'
      · exact Or.inr ⟨u, by simp [hu], h'⟩
    · rw [if_neg he]
      by_cases hc : min_w ≤ (txt ++ palavras s.text).length
      · rw [if_pos hc]
        obtain ⟨ihA, ihB, ihC⟩ := ih [] none (by simp) (by simp)
          (by simp) hch' hv'
        refine ⟨?_, ?_, ihC⟩
        · intro b hb
          rcases List.mem_cons.mp hb with h1 | h1
          · subst h1
            constructor
            · show (start.getD s.start).ordinal ≤ s.end_.ordinal
              cases hst : start with
              | none => simpa using hv s (by simp)
              | some t =>
                have h1t := hstart t hst s (by simp)
                have h2t := hv s (by simp)
                simp only [Option.getD_some]
                omega
            · show joinWords ((txt ++ palavras s.text).take max_w) ≠ []
              refine joinWords_ne_nil _ ?_ ?_
              · have hne : txt ++ palavras s.text ≠ [] := by
                  simp only [ne_eq, List.append_eq_nil]
                  rintro ⟨-, h2⟩
                  exact he (by simp [h2])
                intro hnil
                rw [List.take_eq_nil_iff] at hnil
                rcases hnil with h' | h'
                · omega
                · exact hne h'
              · intro u hu
                rcases List.mem_append.mp (List.take_subset max_w _ hu) with hx | hx
                · exact hg u hx
                · exact palavras_good _ u hx
          · exact ihA b h1
        · intro t ht
          rcases ihB t ht with h' | ⟨u, hu, h'⟩
          · exact absurd h' (by simp)
          · exact Or.inr ⟨u, by simp [hu], h'⟩
      · rw [if_neg hc]
        have hwne : palavras s.text ≠ [] := fun h' => he (by simp [h'])
        obtain ⟨ihA, ihB, ihC⟩ := ih (txt ++ palavras s.text) (some (start.getD s.start))
          (by
            intro u hu
            rcases List.mem_append.mp hu with hx | hx
            · exact hg u hx
            · exact palavras_good _ u hx)
          (by
            constructor
            · intro h'
              exact absurd h' (by simp [List.append_eq_nil, hwne])
            · intro h'
              exact absurd h' (by simp))
          (by
            intro t ht u hu
            have : start.getD s.start = t := by simpa using ht
            cases hst : start with
            | none =>
              rw [hst] at this
              simp only [Option.getD_none] at this
              subst this
              exact (List.pairwise_cons.mp hch).1 u hu
            | some t0 =>
              rw [hst] at this
              simp only [Option.getD_some] at this
              subst this
              exact hstart t0 hst u (by simp [hu]))
          hch' hv'
        refine ⟨ihA, ?_, ihC⟩
        intro t ht
        rcases ihB t ht with h' | ⟨u, hu, h'⟩
        · have : start.getD s.start = t := by simpa using h'
          cases hst : start with
          | none =>
            rw [hst] at this
            simp only [Option.getD_none] at this
            exact Or.inr ⟨s, by simp, this.symm⟩
          | some t0 =>
            rw [hst] at this
            simp only [Option.getD_some] at this
            subst this
            exact Or.inl rfl
        · exact Or.inr ⟨u, by simp [hu], h'⟩

/-- `blocksWords` distributes over append. -/
theorem blocksWords_append (l1 l2 : List Bloco) :
    blocksWords (l1 ++ l2) = blocksWords l1 ++ blocksWords l2 := by
  simp [blocksWords]

/-- C1 (amended): the words of the produced blocks always form an
order-preserving sublist of the input words (no word is duplicated or
reordered); and when every entry carries at most `max_words - min_words + 1`
words — so that no close ever truncates — the concatenation reproduces every
input word exactly once.  (As frozen, C1 is refuted by
`segmenter_coverage_cex`: a close with more than `max_words` accumulated
words drops the excess.) -/
theorem segmenter_coverage (subs : List SubRipItem) (min_w max_w : Nat) :
    List.Sublist (blocksWords (agrupar_blocos subs min_w max_w)) (srtWords subs)
    ∧ (1 ≤ min_w → min_w ≤ max_w →
        (∀ s ∈ subs, (palavras s.text).length ≤ max_w - min_w + 1) →
        blocksWords (agrupar_blocos subs min_w max_w) = srtWords subs) := by
  have hgood := agruparLoop_good min_w max_w subs [] none (by simp)
  have hwords : (agruparLoop min_w max_w subs [] none).2.1 ≠ [] →
      blocksWords (agrupar_blocos subs min_w max_w)
        = blocksWords (agruparLoop min_w max_w subs [] none).1
          ++ (agruparLoop min_w max_w subs [] none).2.1 := by
    intro hne
    simp only [agrupar_blocos]
    rw [if_neg (by simpa [List.isEmpty_iff] using hne)]
    rw [blocksWords_append]
    congr 1
    show wordsOf _ ++ [] = _
    rw [List.append_nil]
    show splitWs (joinWords _) = _
    exact splitWs_joinWords _ hgood
  constructor
  · have hsub := agruparLoop_sub min_w max_w subs [] none (by simp)
    simp only [List.nil_append] at hsub
    by_cases he : (agruparLoop min_w max_w subs [] none).2.1 = []
    · simp only [agrupar_blocos]
      rw [if_pos (by simpa [List.isEmpty_iff] using he)]
      refine List.Sublist.trans ?_ hsub
      exact List.sublist_append_left _ _
    · rw [hwords he]
      exact hsub
  · intro h1 h2 hb
    have hcov := agruparLoop_cover min_w max_w h1 h2 subs [] none (by simp)
      (by simpa using h1) hb
    simp only [List.nil_append] at hcov
    by_cases he : (agruparLoop min_w max_w subs [] none).2.1 = []
    · simp only [agrupar_blocos]
      rw [if_pos (by simpa [List.isEmpty_iff] using he)]
      rw [he, List.append_nil] at hcov
      exact hcov
    · rw [hwords he]
      exact hcov

/-- Counterexample to C1 as frozen: a single entry of 31 words with
`min_words = 20 ≤ max_words = 30` closes one block of only the first 30
words, so concatenating the block texts does not reproduce every input
word. -/
theorem segmenter_coverage_cex :
    20 ≤ 30 ∧ blocksWords (agrupar_blocos [ent31] 20 30) ≠ srtWords [ent31] :=
  ⟨by decide, by decide⟩

/-- Witness for `segmenter_coverage`: a run with 11-, 10- and 5-word entries
(each at most `30 - 20 + 1 = 11` words) has exact coverage. -/
theorem segmenter_coverage_witness :
    blocksWords (agrupar_blocos [entA, entB, entC] 20 30)
      = srtWords [entA, entB, entC] :=
  (segmenter_coverage [entA, entB, entC] 20 30).2 (by decide) (by decide) (by decide)

/-- C2: with `1 ≤ min_words ≤ max_words`, every block except possibly the
last one has its word count in `[min_words, max_words]`. -/
theorem segmenter_wordcount_invariant (subs : List SubRipItem) (min_w max_w : Nat)
    (h1 : 1 ≤ min_w) (h2 : min_w ≤ max_w) :
    ∀ b ∈ (agrupar_blocos subs min_w max_w).dropLast,
      min_w ≤ wc b ∧ wc b ≤ max_w := by
  intro b hb
  simp only [agrupar_blocos] at hb
  by_cases he : (agruparLoop min_w max_w subs [] none).2.1.isEmpty
  · rw [if_pos he] at hb
    exact agruparLoop_wc min_w max_w h2 subs [] none (by simp) b
      ((List.dropLast_sublist _).subset hb)
  · rw [if_neg he] at hb
    rw [List.dropLast_concat] at hb
    exact agruparLoop_wc min_w max_w h2 subs [] none (by simp) b hb

/-- Witness for `segmenter_wordcount_invariant` at a concrete run: the first
(non-trailing) block of the `entA, entB, entC` run has 21 words. -/
theorem segmenter_wordcount_invariant_witness :
    20 ≤ wc (Bloco.mk (tSec 0) (tSec 5)
        (("w1 w2 w3 w4 w5 w6 w7 w8 w9 w10 w11 x1 x2 x3 x4 x5 x6 x7 x8 x9 x10").toList))
    ∧ wc (Bloco.mk (tSec 0) (tSec 5)
        (("w1 w2 w3 w4 w5 w6 w7 w8 w9 w10 w11 x1 x2 x3 x4 x5 x6 x7 x8 x9 x10").toList)) ≤ 30 :=
  segmenter_wordcount_invariant [entA, entB, entC] 20 30 (by decide) (by decide)
    _ (by decide)

/-- C8: for any three entries of 12, 9 and 15 words with
`min_words = 20, max_words = 30`, the segmenter returns exactly two blocks:
entries 1-2 merged (their 21 words, entry 1's start, entry 2's end) and the
trailing block of entry 3 (its 15 words, entry 3's start and end). -/
theorem segmenter_scenario (e1 e2 e3 : SubRipItem)
    (h1 : (palavras e1.text).length = 12) (h2 : (palavras e2.text).length = 9)
    (h3 : (palavras e3.text).length = 15) :
    agrupar_blocos [e1, e2, e3] 20 30 =
      [⟨e1.start, e2.end_, joinWords (palavras e1.text ++ palavras e2.text)⟩,
       ⟨e3.start, e3.end_, joinWords (palavras e3.text)⟩] := by
  have ne1 : palavras e1.text ≠ [] := by intro hh; simp [hh] at h1
  have ne2 : palavras e2.text ≠ [] := by intro hh; simp [hh] at h2
  have ne3 : palavras e3.text ≠ [] := by intro hh; simp [hh] at h3
  have htake : (palavras e1.text ++ palavras e2.text).take 30
      = palavras e1.text ++ palavras e2.text := by
    refine List.take_of_length_le ?_
    simp [h1, h2]
  simp [agrupar_blocos, agruparLoop, ne1, ne2, ne3, h1, h2, h3, htake, List.getLast?]

/-- Witness for `segmenter_scenario`: the concrete 12/9/15-word entries. -/
theorem segmenter_scenario_witness :
    agrupar_blocos [ent12, ent9, ent15] 20 30 =
      [⟨ent12.start, ent9.end_, joinWords (palavras ent12.text ++ palavras ent9.text)⟩,
       ⟨ent15.start, ent15.end_, joinWords (palavras ent15.text)⟩] :=
  segmenter_scenario ent12 ent9 ent15 (by decide) (by decide) (by decide)

/-- C9 (amended): provided additionally `1 ≤ max_words`, every block of a run
over entries with `start ≤ end` sorted by start time has `start ≤ end` and
non-empty text, and empty input yields an empty block list.  (As frozen, C9
is refuted by `segmenter_wellformed_cex`: with `max_words = 0` a block's text
is the join of the first 0 accumulated words, i.e. empty.) -/
theorem segmenter_blocks_wellformed (subs : List SubRipItem) (min_w max_w : Nat)
    (hM : 1 ≤ max_w) (hch : chronological subs)
    (hv : ∀ s ∈ subs, s.start.ordinal ≤ s.end_.ordinal) :
    (∀ b ∈ agrupar_blocos subs min_w max_w,
        b.start.ordinal ≤ b.end_.ordinal ∧ b.text ≠ [])
    ∧ agrupar_blocos ([] : List SubRipItem) min_w max_w = [] := by
  obtain ⟨hA, hB, hC⟩ := agruparLoop_ok min_w max_w hM subs [] none
    (by simp) (by simp) (by simp) hch hv
  refine ⟨?_, rfl⟩
  intro b hb
  simp only [agrupar_blocos] at hb
  by_cases he : (agruparLoop min_w max_w subs [] none).2.1.isEmpty
  · rw [if_pos he] at hb
    exact hA b hb
  · rw [if_neg he] at hb
    have hne : (agruparLoop min_w max_w subs [] none).2.1 ≠ [] := by
      simpa [List.isEmpty_iff] using he
    rcases List.mem_append.mp hb with h1 | h1
    · exact hA b h1
    · rw [List.mem_singleton] at h1
      subst h1
      have hsome : (agruparLoop min_w max_w subs [] none).2.2 ≠ none :=
        fun h0 => hne (hC.mpr h0)
    
      obtain ⟨t0, ht0⟩ := Option.ne_none_iff_exists'.mp hsome
      rcases hB t0 ht0 with h' | ⟨s0, hs0, h'⟩
      · exact absurd h' (by simp)
      · subst h'
        have hsubs_ne : subs ≠ [] := by
          intro h0
          rw [h0] at hs0
          simp at hs0
        constructor
        · rw [ht0]
          rw [List.getLast?_eq_getLast subs hsubs_ne]
          simp only [Option.getD_some, Option.map_some']
          calc s0.start.ordinal
              ≤ (subs.getLast hsubs_ne).start.ordinal :=
                mem_start_le_getLast subs hch s0 hs0 hsubs_ne
            _ ≤ (subs.getLast hsubs_ne).end_.ordinal :=
                hv _ (List.getLast_mem _)
        · exact joinWords_ne_nil _ hne
            (agruparLoop_good min_w max_w subs [] none (by simp))

/-- Counterexample to C9 as frozen: a valid single entry (`start ≤ end`,
trivially chronological) with `min_words = max_words = 0` yields a block
whose text is empty. -/
theorem segmenter_wellformed_cex :
    entHello.start.ordinal ≤ entHello.end_.ordinal
    ∧ (agrupar_blocos [entHello] 0 0).map Bloco.text = [[]] :=
  ⟨by decide, by decide⟩

/-- Witness for `segmenter_blocks_wellformed`: the first block of the
concrete `entA, entB, entC` run has `start ≤ end` and non-empty text. -/
theorem segmenter_wellformed_witness :
    (Bloco.mk (tSec 0) (tSec 5)
        (("w1 w2 w3 w4 w5 w6 w7 w8 w9 w10 w11 x1 x2 x3 x4 x5 x6 x7 x8 x9 x10").toList)).start.ordinal
      ≤ (Bloco.mk (tSec 0) (tSec 5)
        (("w1 w2 w3 w4 w5 w6 w7 w8 w9 w10 w11 x1 x2 x3 x4 x5 x6 x7 x8 x9 x10").toList)).end_.ordinal
    ∧ (Bloco.mk (tSec 0) (tSec 5)
        (("w1 w2 w3 w4 w5 w6 w7 w8 w9 w10 w11 x1 x2 x3 x4 x5 x6 x7 x8 x9 x10").toList)).text ≠ [] :=
  (segmenter_blocks_wellformed [entA, entB, entC] 20 30 (by decide)
    (by simp [chronological, entA, entB, entC, tSec, SubRipTime.ordinal])
    (by decide)).1 _ (by decide)

/-! Lemmas about the image retry loop. -/

/-- One loop iteration in terms of the extracted attempt bytes. -/
theorem gerar_imagem_go_step (oracle : Nat → CallResult) (k n : Nat) :
    gerar_imagem_go oracle k (n + 1) =
      match attemptBytes (oracle k) with
      | some b => some b
      | none => gerar_imagem_go oracle (k + 1) n := by
  cases h : oracle k with
  | raised => simp [gerar_imagem_go, attemptBytes, h]
  | ok resp =>
    cases hi : attemptImage resp with
    | some b => simp [gerar_imagem_go, attemptBytes, h, hi]
    | none => simp [gerar_imagem_go, attemptBytes, h, hi]

/-- The loop result only depends on the attempts it may inspect. -/
theorem gerar_imagem_go_agree (oracle oracle' : Nat → CallResult) :
    ∀ (n k : Nat), (∀ j, j < n → oracle (k + j) = oracle' (k + j)) →
      gerar_imagem_go oracle k n = gerar_imagem_go oracle' k n := by
  intro n
  induction n with
  | zero => intro k _; rfl
  | succ n ih =>
    intro k h
    rw [gerar_imagem_go_step, gerar_imagem_go_step]
    have h0 : oracle k = oracle' k := by simpa using h 0 (by omega)
    rw [h0]
    cases attemptBytes (oracle' k) with
    | some b => rfl
    | none =>
      exact ih (k + 1) fun j hj => by
        have := h (j + 1) (by omega)
        simpa [Nat.add_assoc, Nat.add_comm 1 j] using this

/-- The loop returns `none` exactly when no inspected attempt yields bytes. -/
theorem gerar_imagem_go_none (oracle : Nat → CallResult) :
    ∀ (n k : Nat),
      gerar_imagem_go oracle k n = none ↔
        ∀ j, j < n → attemptBytes (oracle (k + j)) = none := by
  intro n
  induction n with
  | zero => intro k; simp [gerar_imagem_go]
  | succ n ih =>
    intro k
    rw [gerar_imagem_go_step]
    cases hk : attemptBytes (oracle k) with
    | some b =>
      simp only []
      constructor
      · intro h; exact absurd h (by simp)
      · intro h
        have := h 0 (by omega)
        rw [Nat.add_zero] at this
        rw [hk] at this
        exact absurd this (by simp)
    | none =>
      simp only []
      rw [ih (k + 1)]
      constructor
      · intro h j hj
        cases j with
        | zero => simpa using hk
        | succ j' =>
          have := h j' (by omega)
          simpa [Nat.add_assoc, Nat.add_comm 1 j'] using this
      · intro h j hj
        have := h (j + 1) (by omega)
        simpa [Nat.add_assoc, Nat.add_comm 1 j] using this

/-- The loop returns the bytes of the first attempt that yields any. -/
theorem gerar_imagem_go_first (oracle : Nat → CallResult) :
    ∀ (n k j : Nat) (b : List Nat), j < n →
      (∀ j', j' < j → attemptBytes (oracle (k + j')) = none) →
      attemptBytes (oracle (k + j)) = some b →
      gerar_imagem_go oracle k n = some b := by
  intro n
  induction n with
  | zero => intro k j b hj; omega
  | succ n ih =>
    intro k j b hj hprev hb
    rw [gerar_imagem_go_step]
    cases j with
    | zero =>
      rw [Nat.add_zero] at hb
      rw [hb]
    | succ j' =>
      have h0 : attemptBytes (oracle k) = none := by
        simpa using hprev 0 (by omega)
      rw [h0]
      refine ih (k + 1) j' b (by omega) ?_ ?_
      · intro j'' hj''
        have := hprev (j'' + 1) (by omega)
        simpa [Nat.add_assoc, Nat.add_comm 1 j''] using this
      · simpa [Nat.add_assoc, Nat.add_comm 1 j'] using hb

/-- Bytes returned by the loop come from some inspected attempt. -/
theorem gerar_imagem_go_some (oracle : Nat → CallResult) :
    ∀ (n k : Nat) (b : List Nat), gerar_imagem_go oracle k n = some b →
      ∃ j, j < n ∧ attemptBytes (oracle (k + j)) = some b := by
  intro n
  induction n with
  | zero => intro k b h; exact absurd h (by simp [gerar_imagem_go])
  | succ n ih =>
    intro k b h
    rw [gerar_imagem_go_step] at h
    cases hk : attemptBytes (oracle k) with
    | some b' =>
      rw [hk] at h
      refine ⟨0, by omega, ?_⟩
      rw [Nat.add_zero, hk]
      simpa using h
    | none =>
      rw [hk] at h
      obtain ⟨j, hj, hb⟩ := ih (k + 1) b h
      refine ⟨j + 1, by omega, ?_⟩
      simpa [Nat.add_assoc, Nat.add_comm 1 j] using hb

/-- C3: over any trace of backend outcomes, `gerar_imagem` inspects at most
`tries` attempts (its result is unchanged under any change of the trace at
positions `≥ tries`), returns `None` exactly when no attempt among the first
`tries` yields a usable image (inline data among the first candidate's
parts), returns, as soon as some attempt yields one, the bytes of the first
such attempt (early termination), and only ever returns bytes carried by
some attempt's response. -/
theorem gerar_imagem_spec (oracle oracle' : Nat → CallResult) (tries : Nat)
    (hagree : ∀ k, k < tries → oracle k = oracle' k) :
    gerar_imagem oracle tries = gerar_imagem oracle' tries
    ∧ (gerar_imagem oracle tries = none ↔
        ∀ k, k < tries → attemptBytes (oracle k) = none)
    ∧ (∀ k b, k < tries →
        (∀ j, j < k → attemptBytes (oracle j) = none) →
        attemptBytes (oracle k) = some b →
        gerar_imagem oracle tries = some b)
    ∧ (∀ b, gerar_imagem oracle tries = some b →
        ∃ k, k < tries ∧ attemptBytes (oracle k) = some b) := by
  refine ⟨?_, ?_, ?_, ?_⟩
  · exact gerar_imagem_go_agree oracle oracle' tries 0
      (fun j hj => by simpa using hagree j hj)
  · have := gerar_imagem_go_none oracle tries 0
    simpa [gerar_imagem] using this
  · intro k b hk hprev hb
    exact gerar_imagem_go_first oracle tries 0 k b hk
      (fun j' hj' => by simpa using hprev j' hj') (by simpa using hb)
  · intro b hb
    obtain ⟨j, hj, h⟩ := gerar_imagem_go_some oracle tries 0 b hb
    exact ⟨j, hj, by simpa using h⟩

/-- Witness for `gerar_imagem_spec`: a trace whose first call raises and
whose second call returns an image, with `tries = 3`. -/
theorem gerar_imagem_spec_witness :
    gerar_imagem orcW 3 = gerar_imagem orcW 3
    ∧ (gerar_imagem orcW 3 = none ↔
        ∀ k, k < 3 → attemptBytes (orcW k) = none)
    ∧ (∀ k b, k < 3 →
        (∀ j, j < k → attemptBytes (orcW j) = none) →
        attemptBytes (orcW k) = some b →
        gerar_imagem orcW 3 = some b)
    ∧ (∀ b, gerar_imagem orcW 3 = some b →
        ∃ k, k < 3 ∧ attemptBytes (orcW k) = some b) :=
  gerar_imagem_spec orcW orcW 3 (fun _ _ => rfl)

/-! Lemmas about the orchestrator loops. -/

/-- Generalized characterization of the *Gerar Imagens* loop starting at any
block number. -/
theorem runAllLoop_spec (rw : Nat → RewriteResult) (imgOracle : Nat → Nat → CallResult)
    (si : List Nat) (ts : List PyStr) :
    ∀ (blocos : List Bloco) (i : Nat),
      runAllLoop rw imgOracle si ts blocos i =
        ((blocos.enumFrom i).filterMap fun p =>
          if passes si ts p.1 (keyOf p.2) then
            match gerar_imagem (imgOracle p.1) 50 with
            | some b => some (mkItem rw p.1 p.2 b)
            | none => none
          else none,
         (blocos.enumFrom i).filterMap fun p =>
          if passes si ts p.1 (keyOf p.2) then
            match gerar_imagem (imgOracle p.1) 50 with
            | some _ => none
            | none => some (p.1, keyOf p.2)
          else none) := by
  intro blocos
  induction blocos with
  | nil => intro i; rfl
  | cons blk rest ih =>
    intro i
    show runAllLoop rw imgOracle si ts (blk :: rest) i = _
    simp only [runAllLoop]
    by_cases hp : passes si ts i (keyOf blk)
    · rw [if_pos hp]
      cases hg : gerar_imagem (imgOracle i) 50 with
      | none =>
        rw [ih (i + 1)]
        simp [List.enumFrom_cons, hp, hg]
      | some b =>
        rw [ih (i + 1)]
        simp [List.enumFrom_cons, hp, hg]
    · rw [if_neg hp]
      rw [ih (i + 1)]
      simp [List.enumFrom_cons, hp]

/-- C4: the *Gerar Imagens* run records artifacts exactly for the filtered
blocks whose generation yielded image bytes, in block order, and emits one
warning `(i, key)` exactly for each filtered block whose generation yielded
none; a block with no image neither aborts the run nor contributes an
artifact. -/
theorem runAll_spec (blocos : List Bloco) (rw : Nat → RewriteResult)
    (imgOracle : Nat → Nat → CallResult) (si : List Nat) (ts : List PyStr) :
    (runAll blocos rw imgOracle si ts).1 = specImgs blocos rw imgOracle si ts
    ∧ (runAll blocos rw imgOracle si ts).2 = specWarns blocos imgOracle si ts := by
  rw [show runAll blocos rw imgOracle si ts = runAllLoop rw imgOracle si ts blocos 1 from rfl]
  rw [runAllLoop_spec rw imgOracle si ts blocos 1]
  exact ⟨rfl, rfl⟩

/-- C7 (amended): the prompt of every recorded artifact is computed by
`gerar_prompt` from that block's own text alone (and the per-block rewrite
outcome): no continuity context of prior blocks enters any prompt, for any
context size.  (As frozen, C7 is refuted by `runAll_context_cex`.) -/
theorem runAll_prompt_from_own_text (blocos : List Bloco) (rw : Nat → RewriteResult)
    (imgOracle : Nat → Nat → CallResult) (si : List Nat) (ts : List PyStr) :
    ∀ it ∈ (runAll blocos rw imgOracle si ts).1,
      ∃ j, ∃ hj : j < blocos.length,
        it.prompt = gerar_prompt (rw (j + 1)) (blocos.get ⟨j, hj⟩).text := by
  intro it hit
  rw [(runAll_spec blocos rw imgOracle si ts).1] at hit
  simp only [specImgs, List.mem_filterMap] at hit
  obtain ⟨p, hp, he⟩ := hit
  obtain ⟨pi, pb⟩ := p
  obtain ⟨hlb, hget⟩ := List.mk_mem_enumFrom_iff_le_and_getElem?_sub.mp hp
  obtain ⟨hlt, hgetel⟩ := List.getElem?_eq_some.mp hget
  refine ⟨pi - 1, hlt, ?_⟩
  split at he
  · split at he
    · rename_i b hb
      have hmk : mkItem rw pi pb b = it := by simpa using he
      rw [← hmk]
      simp only [mkItem]
      have hpi : pi - 1 + 1 = pi := by omega
      rw [hpi]
      congr 1
      rw [show (blocos.get ⟨pi - 1, hlt⟩) = blocos[pi - 1] from rfl, hgetel]
    · exact absurd he (by simp)
  · exact absurd he (by simp)

set_option maxRecDepth 8000 in
/-- Counterexample to C7 as frozen: in a four-block run (every block
succeeds, rewrite falls back deterministically), block 4's recorded prompt
contains neither block 2's text (`zebra river`) nor block 3's text
(`golden gate`): no prior-block context enters any prompt, because the code
passes only `blk["text"]` to `gerar_prompt`. -/
theorem runAll_context_cex :
    (runAll blocosCtx rwAll orcAll [] []).1.length = 4
    ∧ ((runAll blocosCtx rwAll orcAll [] []).1.map
        (fun it => decide (("zebra river").toList <:+: it.prompt))).getLast? = some false
    ∧ ((runAll blocosCtx rwAll orcAll [] []).1.map
        (fun it => decide (("golden gate").toList <:+: it.prompt))).getLast? = some false :=
  ⟨by decide, by decide, by decide⟩

/-- Witness for `runAll_prompt_from_own_text`: the first artifact of the
concrete four-block run. -/
theorem runAll_prompt_from_own_text_witness :
    ∃ j, ∃ hj : j < blocosCtx.length,
      (mkItem rwAll 1 (blkW 0 "opening scene") [1, 2, 3]).prompt
        = gerar_prompt (rwAll (j + 1)) (blocosCtx.get ⟨j, hj⟩).text :=
  runAll_prompt_from_own_text blocosCtx rwAll orcAll [] [] _ (by decide)

/-- The reprocess loop only ever appends to the result list. -/
theorem reprocessLoop_append (rw : Nat → RewriteResult) (imgOracle : Nat → Nat → CallResult)
    (si : List Nat) (ts : List PyStr) :
    ∀ (blocos : List Bloco) (i : Nat) (imgs : List ImgItem),
      ∃ t, reprocessLoop rw imgOracle si ts blocos i imgs = imgs ++ t := by
  intro blocos
  induction blocos with
  | nil => intro i imgs; exact ⟨[], by simp [reprocessLoop]⟩
  | cons blk rest ih =>
    intro i imgs
    simp only [reprocessLoop]
    by_cases ha : imgs.any (fun item => item.name = nameOf blk i)
    · rw [if_pos ha]; exact ih (i + 1) imgs
    · rw [if_neg ha]
      by_cases hp : passes si ts i (keyOf blk)
      · rw [if_pos hp]
        cases hg : gerar_imagem (imgOracle i) 50 with
        | some b =>
          obtain ⟨t, ht⟩ := ih (i + 1) (imgs ++ [mkItem rw i blk b])
          refine ⟨[mkItem rw i blk b] ++ t, ?_⟩
          show reprocessLoop rw imgOracle si ts rest (i + 1) (imgs ++ [mkItem rw i blk b]) = _
          rw [ht, List.append_assoc]
        | none => exact ih (i + 1) imgs
      · rw [if_neg hp]; exact ih (i + 1) imgs

/-- A name already present in the result list is never appended again by the
reprocess loop: its number of occurrences is preserved. -/
theorem reprocessLoop_count (rw : Nat → RewriteResult) (imgOracle : Nat → Nat → CallResult)
    (si : List Nat) (ts : List PyStr) :
    ∀ (blocos : List Bloco) (i : Nat) (imgs : List ImgItem) (nm : PyStr),
      nm ∈ imgs.map ImgItem.name →
      ((reprocessLoop rw imgOracle si ts blocos i imgs).map ImgItem.name).count nm
        = (imgs.map ImgItem.name).count nm := by
  intro blocos
  induction blocos with
  | nil => intro i imgs nm _; simp [reprocessLoop]
  | cons blk rest ih =>
    intro i imgs nm hnm
    simp only [reprocessLoop]
    by_cases ha : imgs.any (fun item => item.name = nameOf blk i)
    · rw [if_pos ha]; exact ih (i + 1) imgs nm hnm
    · rw [if_neg ha]
      by_cases hp : passes si ts i (keyOf blk)
      · rw [if_pos hp]
        cases hg : gerar_imagem (imgOracle i) 50 with
        | some b =>
          have hfresh : nameOf blk i ∉ imgs.map ImgItem.name := by
            intro hmem
            obtain ⟨item, hitem, heq⟩ := List.mem_map.mp hmem
            have hforall : ∀ x ∈ imgs, ¬ x.name = nameOf blk i := by simpa using ha
            exact hforall item hitem heq
          have hne : nm ≠ nameOf blk i := fun h => hfresh (h ▸ hnm)
          rw [ih (i + 1) (imgs ++ [mkItem rw i blk b]) nm
            (by rw [List.map_append]; exact List.mem_append_left _ hnm)]
          rw [List.map_append, List.count_append]
          have : ((List.map ImgItem.name [mkItem rw i blk b]).count nm) = 0 := by
            simp only [List.map_cons, List.map_nil, List.count_cons, List.count_nil]
            have : (nameOf blk i == nm) = false := by
              simp only [beq_eq_false_iff_ne, ne_eq]
              exact fun h => hne h.symm
            simp [mkItem, this]
          rw [this, Nat.add_zero]
        | none => exact ih (i + 1) imgs nm hnm
      · rw [if_neg hp]; exact ih (i + 1) imgs nm hnm

/-- If every filtered block's name is already recorded, the reprocess loop
changes nothing. -/
theorem reprocessLoop_already (rw : Nat → RewriteResult) (imgOracle : Nat → Nat → CallResult)
    (si : List Nat) (ts : List PyStr) :
    ∀ (blocos : List Bloco) (i : Nat) (imgs : List ImgItem),
      (∀ j (hj : j < blocos.length),
        passes si ts (i + j) (keyOf (blocos.get ⟨j, hj⟩)) = true →
        nameOf (blocos.get ⟨j, hj⟩) (i + j) ∈ imgs.map ImgItem.name) →
      reprocessLoop rw imgOracle si ts blocos i imgs = imgs := by
  intro blocos
  induction blocos with
  | nil => intro i imgs _; rfl
  | cons blk rest ih =>
    intro i imgs hall
    have hrest : ∀ j (hj : j < rest.length),
        passes si ts (i + 1 + j) (keyOf (rest.get ⟨j, hj⟩)) = true →
        nameOf (rest.get ⟨j, hj⟩) (i + 1 + j) ∈ imgs.map ImgItem.name := by
      intro j hj hp
      have := hall (j + 1) (by simpa using Nat.succ_lt_succ hj)
      simp only [List.get_cons_succ] at this
      have harith : i + (j + 1) = i + 1 + j := by omega
      rw [harith] at this
      exact this hp
    simp only [reprocessLoop]
    by_cases ha : imgs.any (fun item => item.name = nameOf blk i)
    · rw [if_pos ha]; exact ih (i + 1) imgs hrest
    · rw [if_neg ha]
      by_cases hp : passes si ts i (keyOf blk)
      · exfalso
        have h0 := hall 0 (by simp)
        simp only [List.get_cons_zero, Nat.add_zero] at h0
        obtain ⟨item, hitem, heq⟩ := List.mem_map.mp (h0 hp)
        have hforall : ∀ x ∈ imgs, ¬ x.name = nameOf blk i := by simpa using ha
        exact hforall item hitem heq
      · rw [if_neg hp]; exact ih (i + 1) imgs hrest

/-- Everything the reprocess loop returns is either an original item or a
fresh item whose name was not previously recorded. -/
theorem reprocessLoop_fresh (rw : Nat → RewriteResult) (imgOracle : Nat → Nat → CallResult)
    (si : List Nat) (ts : List PyStr) :
    ∀ (blocos : List Bloco) (i : Nat) (imgs : List ImgItem),
      ∀ it ∈ reprocessLoop rw imgOracle si ts blocos i imgs,
        it ∈ imgs ∨ it.name ∉ imgs.map ImgItem.name := by
  intro blocos
  induction blocos with
  | nil => intro i imgs it hit; exact Or.inl hit
  | cons blk rest ih =>
    intro i imgs it hit
    simp only [reprocessLoop] at hit
    by_cases ha : imgs.any (fun item => item.name = nameOf blk i)
    · rw [if_pos ha] at hit; exact ih (i + 1) imgs it hit
    · rw [if_neg ha] at hit
      by_cases hp : passes si ts i (keyOf blk)
      · rw [if_pos hp] at hit
        cases hg : gerar_imagem (imgOracle i) 50 with
        | some b =>
          rw [hg] at hit
          have hfresh : nameOf blk i ∉ imgs.map ImgItem.name := by
            intro hmem
            obtain ⟨item, hitem, heq⟩ := List.mem_map.mp hmem
            have hforall : ∀ x ∈ imgs, ¬ x.name = nameOf blk i := by simpa using ha
            exact hforall item hitem heq
          rcases ih (i + 1) (imgs ++ [mkItem rw i blk b]) it hit with h' | h'
          · rcases List.mem_append.mp h' with h'' | h''
            · exact Or.inl h''
            · rw [List.mem_singleton] at h''
              subst h''
              exact Or.inr (by simpa [mkItem] using hfresh)
          · refine Or.inr fun hmem => h' ?_
            rw [List.map_append]
            exact List.mem_append_left _ hmem
        | none =>
          rw [hg] at hit
          exact ih (i + 1) imgs it hit
      · rw [if_neg hp] at hit; exact ih (i + 1) imgs it hit

/-- C5: reprocessing only appends (the prior result list is a prefix of the
new one), never adds another artifact under a name already recorded, leaves
the result list unchanged when every filtered block's `<key>_B<i>.png` name
is already recorded, and every returned item is either an original one or a
fresh one whose name was absent. -/
theorem reprocess_idempotent (blocos : List Bloco) (rw : Nat → RewriteResult)
    (imgOracle : Nat → Nat → CallResult) (si : List Nat) (ts : List PyStr)
    (imgs0 : List ImgItem) :
    (∃ t, reprocess blocos rw imgOracle si ts imgs0 = imgs0 ++ t)
    ∧ (∀ nm, nm ∈ imgs0.map ImgItem.name →
        ((reprocess blocos rw imgOracle si ts imgs0).map ImgItem.name).count nm
          = (imgs0.map ImgItem.name).count nm)
    ∧ ((∀ j (hj : j < blocos.length),
          passes si ts (1 + j) (keyOf (blocos.get ⟨j, hj⟩)) = true →
          nameOf (blocos.get ⟨j, hj⟩) (1 + j) ∈ imgs0.map ImgItem.name) →
        reprocess blocos rw imgOracle si ts imgs0 = imgs0)
    ∧ (∀ it ∈ reprocess blocos rw imgOracle si ts imgs0,
        it ∈ imgs0 ∨ it.name ∉ imgs0.map ImgItem.name) :=
  ⟨reprocessLoop_append rw imgOracle si ts blocos 1 imgs0,
   fun nm h => reprocessLoop_count rw imgOracle si ts blocos 1 imgs0 nm h,
   fun h => reprocessLoop_already rw imgOracle si ts blocos 1 imgs0 h,
   fun it h => reprocessLoop_fresh rw imgOracle si ts blocos 1 imgs0 it h⟩

/-- Witness for `reprocess_idempotent`: reprocessing a two-block list whose
artifacts are both already recorded changes nothing. -/
theorem reprocess_idempotent_witness :
    reprocess blocosRe rwAll orcAll [] [] imgsRe = imgsRe :=
  (reprocess_idempotent blocosRe rwAll orcAll [] [] imgsRe).2.2.1
    (by
      intro j hj hp
      cases j with
      | zero =>
        exact (by decide :
          nameOf (blkW 0 ("first block")) 1 ∈ List.map ImgItem.name imgsRe)
      | succ j' =>
        cases j' with
        | zero =>
          exact (by decide :
            nameOf (blkW 2 ("second block")) 2 ∈ List.map ImgItem.name imgsRe)
        | succ j'' =>
          have hlen : blocosRe.length = 2 := rfl
          omega)

/-- C6 (amended): inside `gerar_prompt`, a raised rewrite call, an empty
cleaned response, or a response starting with the first ten characters of
the input all yield exactly `texto + ", " + STYLE_SUFFIX`; but when the
rewrite capability is absent (`client_txt` falsy), SRTPlayMini's per-block
choice uses the bare block text with no suffix (see
`gerar_prompt_fallback_cex`). -/
theorem gerar_prompt_fallback (texto : PyStr) :
    gerar_prompt .raised texto = fallbackPrompt STYLE_SUFFIX texto
    ∧ (∀ raw, clean_prompt raw = []
          ∨ (texto.take 10).isPrefixOf (clean_prompt raw) = true →
        gerar_prompt (.ok raw) texto = fallbackPrompt STYLE_SUFFIX texto)
    ∧ (∀ rewrite, prompt_para_bloco false rewrite texto = texto) := by
  refine ⟨rfl, ?_, fun _ => rfl⟩
  intro raw hcase
  have hcond : ¬((clean_prompt raw).isEmpty = false
      ∧ (texto.take 10).isPrefixOf (clean_prompt raw) = false) := by
    rintro ⟨hne, hpre⟩
    rcases hcase with h | h
    · rw [h] at hne
      exact absurd hne (by simp)
    · rw [h] at hpre
      exact absurd hpre (by simp)
  show gerar_prompt_core STYLE_SUFFIX (.ok raw) texto = _
  simp only [gerar_prompt_core]
  rw [if_neg hcond]

/-- Counterexample to C6 as frozen: with the rewrite capability absent,
SRTPlayMini's per-block prompt is the bare block text, not
`block_text + ", " + style_suffix`. -/
theorem gerar_prompt_fallback_cex :
    prompt_para_bloco false .raised ("hello").toList = ("hello").toList
    ∧ prompt_para_bloco false .raised ("hello").toList
        ≠ fallbackPrompt STYLE_SUFFIX_MINI ("hello").toList :=
  ⟨rfl, by decide⟩

/-- Witness for `gerar_prompt_fallback`: a rewrite response echoing the
input's first ten characters triggers the deterministic fallback. -/
theorem gerar_prompt_fallback_witness :
    gerar_prompt (.ok rawEcho) textoW = fallbackPrompt STYLE_SUFFIX textoW :=
  (gerar_prompt_fallback textoW).2.1 rawEcho (Or.inr (by decide))

/-! Lemmas about `clean_prompt` sanitization. -/

/-- Characters of the collapse scanner output are spaces or input
characters. -/
theorem mem_collapseWsAux :
    ∀ (l : PyStr) (b : Bool) (c : Char), c ∈ collapseWsAux l b → c = ' ' ∨ c ∈ l := by
  intro l
  induction l with
  | nil => intro b c hc; simp [collapseWsAux] at hc
  | cons d cs ih =>
    intro b c hc
    simp only [collapseWsAux] at hc
    by_cases hd : wsChar d
    · rw [if_pos hd] at hc
      by_cases hb : b
      · rw [if_pos hb] at hc
        rcases ih true c hc with h | h
        · exact Or.inl h
        · exact Or.inr (by simp [h])
      · rw [if_neg hb] at hc
        rcases List.mem_cons.mp hc with h | h
        · exact Or.inl h
        · rcases ih true c h with h' | h'
          · exact Or.inl h'
          · exact Or.inr (by simp [h'])
    · rw [if_neg hd] at hc
      rcases List.mem_cons.mp hc with h | h
      · exact Or.inr (by simp [h])
      · rcases ih false c h with h' | h'
        · exact Or.inl h'
        · exact Or.inr (by simp [h'])

/-- Characters of `pyStrip l` come from `l`. -/
theorem mem_pyStrip (l : PyStr) (c : Char) (hc : c ∈ pyStrip l) : c ∈ l := by
  simp only [pyStrip, List.mem_reverse] at hc
  have h1 := (List.dropWhile_sublist wsChar).subset hc
  rw [List.mem_reverse] at h1
  exact (List.dropWhile_sublist wsChar).subset h1

/-- The collapse scanner output, entered mid-run, starts with a
non-whitespace character if anything. -/
theorem head_collapseWsAux_true :
    ∀ (cs : PyStr), headWsFree (collapseWsAux cs true) = true := by
  intro cs
  induction cs with
  | nil => rfl
  | cons c cs ih =>
    simp only [collapseWsAux]
    by_cases hc : wsChar c
    · simp [hc, ih]
    · simp [headWsFree, hc]

/-- The collapse scanner never emits two consecutive whitespace
characters. -/
theorem noDoubleWs_collapseWsAux :
    ∀ (cs : PyStr) (b : Bool), noDoubleWs (collapseWsAux cs b) = true := by
  intro cs
  induction cs with
  | nil => intro b; rfl
  | cons c cs ih =>
    intro b
    simp only [collapseWsAux]
    by_cases hc : wsChar c
    · rw [if_pos hc]
      by_cases hb : b
      · rw [if_pos hb]
        exact ih true
      · rw [if_neg hb]
        cases hX : collapseWsAux cs true with
        | nil => rfl
        | cons d t =>
          have hd : wsChar d = false := by
            have := head_collapseWsAux_true cs
            rw [hX] at this
            simpa [headWsFree] using this
          have ht := ih true
          rw [hX] at ht
          simp [noDoubleWs, hd, ht]
    · rw [if_neg hc]
      cases hX : collapseWsAux cs false with
      | nil => rfl
      | cons d t =>
        have ht := ih false
        rw [hX] at ht
        simp [noDoubleWs, hc, ht]

/-- If the collapse scanner output is empty, every input character is
whitespace. -/
theorem collapseWsAux_eq_nil :
    ∀ (cs : PyStr) (b : Bool), collapseWsAux cs b = [] → ∀ c ∈ cs, wsChar c = true := by
  intro cs
  induction cs with
  | nil => intro b _ c hc; simp at hc
  | cons d cs ih =>
    intro b h c hc
    simp only [collapseWsAux] at h
    by_cases hd : wsChar d
    · rw [if_pos hd] at h
      by_cases hb : b
      · rw [if_pos hb] at h
        rcases List.mem_cons.mp hc with h' | h'
        · subst h'; exact hd
        · exact ih true h c h'
      · rw [if_neg hb] at h
        exact absurd h (by simp)
    · rw [if_neg hd] at h
      exact absurd h (by simp)

/-- `headWsFree` through `head?`. -/
theorem headWsFree_iff (l : PyStr) :
    headWsFree l = true ↔ ∀ c, l.head? = some c → wsChar c = false := by
  cases l with
  | nil => simp [headWsFree]
  | cons c cs => simp [headWsFree]

/-- `lastWsFree` through `getLast?`. -/
theorem lastWsFree_iff (l : PyStr) :
    lastWsFree l = true ↔ ∀ c, l.getLast? = some c → wsChar c = false := by
  rw [lastWsFree, headWsFree_iff]
  constructor
  · intro h c hc
    exact h c (by rw [List.head?_reverse, hc])
  · intro h c hc
    rw [List.head?_reverse] at hc
    exact h c hc

/-- `dropWhile` leaves a non-matching head (if anything). -/
theorem headWsFree_dropWhile :
    ∀ (l : PyStr), headWsFree (l.dropWhile wsChar) = true := by
  intro l
  induction l with
  | nil => rfl
  | cons c cs ih =>
    by_cases hc : wsChar c
    · rw [List.dropWhile_cons_of_pos hc]
      exact ih
    · rw [List.dropWhile_cons_of_neg hc]
      simpa [headWsFree] using hc

/-- A non-empty `dropWhile` result keeps the original last element. -/
theorem getLast?_dropWhile :
    ∀ (l : PyStr), l.dropWhile wsChar ≠ [] →
      (l.dropWhile wsChar).getLast? = l.getLast? := by
  intro l
  induction l with
  | nil => intro h; simp at h
  | cons c cs ih =>
    intro h
    by_cases hc : wsChar c
    · rw [List.dropWhile_cons_of_pos hc] at h ⊢
      have hcs : cs ≠ [] := by
        intro h0
        rw [h0] at h
        simp at h
      cases cs with
      | nil => exact absurd rfl hcs
      | cons d t =>
        rw [List.getLast?_cons_cons]
        exact ih h
    · rw [List.dropWhile_cons_of_neg hc]

/-- `pyStrip` output starts with a non-whitespace character, if anything. -/
theorem headWsFree_pyStrip (l : PyStr) : headWsFree (pyStrip l) = true := by
  rw [headWsFree_iff]
  intro c hc
  rw [pyStrip, List.head?_reverse] at hc
  have hne : (l.dropWhile wsChar).reverse.dropWhile wsChar ≠ [] := by
    intro h0
    rw [h0] at hc
    simp at hc
  rw [getLast?_dropWhile _ hne, List.getLast?_reverse] at hc
  exact (headWsFree_iff _).mp (headWsFree_dropWhile l) c hc

/-- `pyStrip` output ends with a non-whitespace character, if anything. -/
theorem lastWsFree_pyStrip (l : PyStr) : lastWsFree (pyStrip l) = true := by
  rw [lastWsFree, pyStrip, List.reverse_reverse]
  exact headWsFree_dropWhile _

/-- The collapse scanner preserves a non-whitespace head. -/
theorem headWsFree_collapseWs (l : PyStr) (h : headWsFree l = true) :
    headWsFree (collapseWs l) = true := by
  cases l with
  | nil => rfl
  | cons c cs =>
    have hc : wsChar c = false := by simpa [headWsFree] using h
    show headWsFree (collapseWsAux (c :: cs) false) = true
    simp only [collapseWsAux, hc]
    simp [headWsFree, hc]

/-- The collapse scanner preserves a non-whitespace last character. -/
theorem lastWsFree_collapseWsAux :
    ∀ (l : PyStr) (b : Bool),
      (∀ c, l.getLast? = some c → wsChar c = false) →
      ∀ c, (collapseWsAux l b).getLast? = some c → wsChar c = false := by
  intro l
  induction l with
  | nil => intro b _ c hc; simp [collapseWsAux] at hc
  | cons d cs ih =>
    intro b hlast c hc
    have htrans : cs ≠ [] → ∀ c0, cs.getLast? = some c0 → wsChar c0 = false := by
      intro hcs c0 hc0
      refine hlast c0 ?_
      cases cs with
      | nil => exact absurd rfl hcs
      | cons e t => rw [List.getLast?_cons_cons]; exact hc0
    simp only [collapseWsAux] at hc
    by_cases hd : wsChar d
    · rw [if_pos hd] at hc
      have hcs : cs ≠ [] := by
        intro h0
        have : d = c → False := by
          intro he
          subst he
          have := hlast d (by rw [h0]; rfl)
          rw [this] at hd
          exact absurd hd (by simp)
        subst h0
        by_cases hb : b
        · rw [if_pos hb] at hc
          simp [collapseWsAux] at hc
        · rw [if_neg hb] at hc
          simp only [collapseWsAux] at hc
          rw [List.getLast?_singleton] at hc
          have hdc : (' ' : Char) = c := by simpa using hc
          have := hlast d rfl
          rw [this] at hd
          exact absurd hd (by simp)
      by_cases hb : b
      · rw [if_pos hb] at hc
        exact ih true (fun c0 hc0 => htrans hcs c0 hc0) c hc
      · rw [if_neg hb] at hc
        cases hX : collapseWsAux cs true with
        | nil =>
          rw [hX, List.getLast?_singleton] at hc
          exfalso
          have hall := collapseWsAux_eq_nil cs true hX
          cases hcs' : cs with
          | nil => exact hcs hcs'
          | cons e t =>
            have hne2 : cs ≠ [] := by simp [hcs']
            obtain ⟨c0, hc0⟩ : ∃ c0, cs.getLast? = some c0 := by
              rw [hcs']
              exact ⟨(e :: t).getLast (by simp), List.getLast?_eq_getLast _ _⟩
            have h1 := htrans hne2 c0 hc0
            have h2 : c0 ∈ cs := by
              have := List.getLast?_eq_getLast (e :: t) (by simp)
              rw [hcs'] at hc0
              rw [this] at hc0
              have hmem := List.getLast_mem (l := e :: t) (by simp)
              rw [hcs']
              have hc0' : (e :: t).getLast (by simp) = c0 := by simpa using hc0
              rw [← hc0']
              exact hmem
            rw [hcs'] at h2
            have := hall c0 (by rw [hcs']; exact h2)
            rw [this] at h1
            exact absurd h1 (by simp)
        | cons e t =>
          rw [hX] at hc
          rw [List.getLast?_cons_cons] at hc
          have := ih true (fun c0 hc0 => htrans hcs c0 hc0) c
          rw [hX] at this
          exact this hc
    · rw [if_neg hd] at hc
      cases hX : collapseWsAux cs false with
      | nil =>
        rw [hX, List.getLast?_singleton] at hc
        have : d = c := by simpa using hc
        subst this
        by_cases hcs : cs = []
        · subst hcs
          exact hlast d rfl
        · exfalso
          have hall := collapseWsAux_eq_nil cs false hX
          cases hcs' : cs with
          | nil => exact hcs hcs'
          | cons e t =>
            obtain ⟨c0, hc0⟩ : ∃ c0, cs.getLast? = some c0 := by
              rw [hcs']
              exact ⟨(e :: t).getLast (by simp), List.getLast?_eq_getLast _ _⟩
            have h1 := htrans hcs c0 hc0
            have h2 : c0 ∈ cs := by
              rw [hcs'] at hc0 ⊢
              have := List.getLast?_eq_getLast (e :: t) (by simp)
              rw [this] at hc0
              have hc0' : (e :: t).getLast (by simp) = c0 := by simpa using hc0
              rw [← hc0']
              exact List.getLast_mem (by simp)
            have := hall c0 h2
            rw [this] at h1
            exact absurd h1 (by simp)
      | cons e t =>
        rw [hX] at hc
        rw [List.getLast?_cons_cons] at hc
        have hcs : cs ≠ [] := by
          intro h0
          rw [h0] at hX
          simp [collapseWsAux] at hX
        have := ih false (fun c0 hc0 => htrans hcs c0 hc0) c
        rw [hX] at this
        exact this hc

/-- C10: `clean_prompt` is the pipeline `keep text after the last
Prompt-label match`, `strip a leading Here-apostrophe-s-a preamble`,
`remove all stars`, `strip`, `collapse whitespace runs to single spaces`;
its output contains no `*`, no two consecutive whitespace characters, and
no leading or trailing whitespace. -/
theorem clean_prompt_sanitized (raw : PyStr) :
    clean_prompt raw
      = collapseWs (pyStrip (removeStars (stripPreamble (splitLastLabel raw))))
    ∧ ((clean_prompt raw).all fun c => c != '*') = true
    ∧ noDoubleWs (clean_prompt raw) = true
    ∧ headWsFree (clean_prompt raw) = true
    ∧ lastWsFree (clean_prompt raw) = true := by
  refine ⟨rfl, ?_, ?_, ?_, ?_⟩
  · rw [List.all_eq_true]
    intro c hc
    have hmem := mem_collapseWsAux _ false c hc
    rcases hmem with h | h
    · simp [h]
    · have h2 := mem_pyStrip _ c h
      have h3 := List.of_mem_filter h2
      simpa using h3
  · exact noDoubleWs_collapseWsAux _ false
  · exact headWsFree_collapseWs _ (headWsFree_pyStrip _)
  · rw [lastWsFree_iff]
    exact lastWsFree_collapseWsAux _ false
      ((lastWsFree_iff _).mp (lastWsFree_pyStrip _))
